import Mathlib

/-!
Verification of the halo2-playground repository: a shallow embedding of the
duplex transcript sponge (src/transcript_sponge.rs), of the add/mul gate
chips and of the orchestrator circuit `MyCircuit` (src/lib.rs), together
with theorems settling the specification's claims about them.

The Poseidon permutation chip is an external capability (it lives in the
halo2_gadgets / poseidon_circuit crates, outside this repository); the spec
treats it as an opaque contract `initial_state / add_input / permute /
get_output`, and it is modelled here by the record `PermChip` plus the
concrete `getOutput` (first `RATE` state elements, per the spec).
Machine-level `[F; N]` arrays are embedded as lists whose lengths are
tracked explicitly; `try_into().unwrap()` panics are embedded as `Option`
(`none` = panic), and the unbounded `loop` of `squeeze` is embedded with an
explicit iteration budget (`squeezeFuel`).
-/

/-- External permutation capability consumed by the sponge
(`PoseidonSpongeInstructions`): `initial_state`, `add_input`, `permute`.
Opaque contract per the spec; states are lists of field elements. -/
structure PermChip (F : Type) where
  initialState : List F
  addInput : List F → List (Option F) → List F
  permute : List F → List F

/-- Length contract of a permutation chip, mirroring what the Rust array
types `[F; T]` guarantee at type level: states of length `T` stay of length
`T` under the chip's operations, and the rate does not exceed the width. -/
structure ChipWF {F : Type} (chip : PermChip F) (T RATE : Nat) : Prop where
  rate_le : RATE ≤ T
  init_len : chip.initialState.length = T
  permute_len : ∀ st, st.length = T → (chip.permute st).length = T
  addInput_len : ∀ st inp, st.length = T → (chip.addInput st inp).length = T

/-- Modelled from the spec: `get_output(state)` of the external Poseidon
chip returns the first `RATE` elements of the state, as a fully filled rate
buffer (transcript_sponge.rs line 54 calls it; the implementation lives in
the external crate). -/
def getOutput {F : Type} (RATE : Nat) (st : List F) : List (Option F) :=
  (st.take RATE).map some

namespace TranscriptSponge

/-- The absorbing-mode sponge: `Sponge { chip, mode : TranscriptAbsorbing,
state }` of transcript_sponge.rs lines 59-72.  The mode's rate buffer is a
list of `RATE` optional elements. -/
structure AbsorbingSponge (F : Type) where
  chip : PermChip F
  buffer : List (Option F)
  state : List F

/-- The squeezing-mode sponge: `Sponge { chip, mode : TranscriptSqueezing,
state }` of transcript_sponge.rs lines 59-72. -/
structure SqueezingSponge (F : Type) where
  chip : PermChip F
  buffer : List (Option F)
  state : List F

variable {F : Type}

/-- `TranscriptAbsorbing::init_with` (transcript_sponge.rs lines 26-35):
builds `[Some(val), None, ..]` of length `1 + (RATE - 1)` and converts it
into a `RATE`-slot array; the `try_into().unwrap()` panic (when the lengths
disagree, i.e. when `RATE = 0`) is embedded as `none`. -/
def init_with (RATE : Nat) (val : F) : Option (List (Option F)) :=
  let v : List (Option F) := some val :: List.replicate (RATE - 1) none
  if v.length = RATE then some v else none

/-- `poseidon_sponge` (transcript_sponge.rs lines 37-55): optionally add the
input buffer into the state, always permute once, and return the new state
together with `get_output` of it.  Each call performs exactly one
permutation call. -/
def poseidon_sponge (RATE : Nat) (chip : PermChip F) (state : List F)
    (input : Option (List (Option F))) : List F × List (Option F) :=
  let st1 := match input with
    | some inp => chip.addInput state inp
    | none => state
  let st2 := chip.permute st1
  (st2, getOutput RATE st2)

/-- `Sponge::new` (transcript_sponge.rs lines 84-97): initial state from the
chip, all-empty buffer `(0..RATE).map(|_| None)`; the `try_into().unwrap()`
is embedded as the length test (it always succeeds, for every `RATE`). -/
def new (RATE : Nat) (chip : PermChip F) : Option (AbsorbingSponge F) :=
  let buf : List (Option F) := List.replicate RATE none
  if buf.length = RATE then
    some { chip := chip, buffer := buf, state := chip.initialState }
  else none

/-- The leftmost-free-slot pass of `Sponge::absorb` (transcript_sponge.rs
lines 105-110): put `value` into the first `None` entry; `none` when every
entry is already filled. -/
def fillLeftmost : List (Option F) → F → Option (List (Option F))
  | [], _ => none
  | none :: rest, v => some (some v :: rest)
  | some x :: rest, v => (fillLeftmost rest v).map (fun r => some x :: r)

/-- `Sponge::absorb` (transcript_sponge.rs lines 100-122).  Returns the new
sponge together with the number of permutation calls made (0 or 1); `none`
embeds the `init_with` panic.  On the buffer-full path the squeezing output
of `poseidon_sponge` is discarded (`let _ = ...`) and only the state is
kept. -/
def absorb (RATE : Nat) (sp : AbsorbingSponge F) (value : F) :
    Option (AbsorbingSponge F × Nat) :=
  match fillLeftmost sp.buffer value with
  | some buf => some ({ sp with buffer := buf }, 0)
  | none =>
    let p := poseidon_sponge RATE sp.chip sp.state (some sp.buffer)
    (init_with RATE value).map
      (fun b => ({ chip := sp.chip, buffer := b, state := p.1 }, 1))

/-- `Sponge::finish_absorbing` (transcript_sponge.rs lines 126-144):
unconditionally one more `poseidon_sponge` call on the current buffer
contents; the resulting squeezing buffer is `get_output` of the new state.
Returns the squeezing sponge and the permutation-call count (always 1). -/
def finish_absorbing (RATE : Nat) (sp : AbsorbingSponge F) :
    SqueezingSponge F × Nat :=
  let p := poseidon_sponge RATE sp.chip sp.state (some sp.buffer)
  ({ chip := sp.chip, buffer := p.2, state := p.1 }, 1)

/-- The take-leftmost pass of `Sponge::squeeze` (transcript_sponge.rs lines
159-163): `entry.take()` on the first `Some` entry, returning its content
and the buffer with that entry cleared. -/
def takeLeftmost : List (Option F) → Option (F × List (Option F))
  | [] => none
  | some x :: rest => some (x, none :: rest)
  | none :: rest => (takeLeftmost rest).map (fun r => (r.1, none :: r.2))

/-- `Sponge::squeeze` (transcript_sponge.rs lines 157-173).  The Rust
`loop` is embedded with an explicit iteration budget (first argument): each
iteration either takes the leftmost unconsumed element or refills the
buffer via a `poseidon_sponge` call with no new input and retries.
Returns the squeezed element, the new sponge and the number of permutation
calls; `none` when the budget is exhausted without returning. -/
def squeezeFuel (RATE : Nat) : Nat → SqueezingSponge F →
    Option (F × SqueezingSponge F × Nat)
  | 0, _ => none
  | n + 1, sp =>
    match takeLeftmost sp.buffer with
    | some r => some (r.1, { sp with buffer := r.2 }, 0)
    | none =>
      let p := poseidon_sponge RATE sp.chip sp.state none
      (squeezeFuel RATE n { chip := sp.chip, buffer := p.2, state := p.1 }).map
        (fun r => (r.1, r.2.1, r.2.2 + 1))

/-- Folding `absorb` over a list of values, accumulating the total number of
permutation calls. -/
def absorbList (RATE : Nat) : AbsorbingSponge F → List F →
    Option (AbsorbingSponge F × Nat)
  | sp, [] => some (sp, 0)
  | sp, v :: vs => do
    let r1 ← absorb RATE sp v
    let r2 ← absorbList RATE r1.1 vs
    some (r2.1, r1.2 + r2.2)

/-- Squeezing `n` elements in sequence (each squeeze with iteration budget
2, which suffices for well-formed chips of positive rate). -/
def squeezeList (RATE : Nat) : Nat → SqueezingSponge F → Option (List F)
  | 0, _ => some []
  | n + 1, sp => do
    let r ← squeezeFuel RATE 2 sp
    let vs ← squeezeList RATE n r.2.1
    some (r.1 :: vs)

/-- One full transcript run `absorb*; finish_absorbing; squeeze*` from a
fresh sponge: absorb every element of `inputs`, transition, then squeeze
`n` outputs. -/
def runTranscript (RATE : Nat) (chip : PermChip F) (inputs : List F)
    (n : Nat) : Option (List F) := do
  let sp0 ← new RATE chip
  let r1 ← absorbList RATE sp0 inputs
  let sp2 := (finish_absorbing RATE r1.1).1
  squeezeList RATE n sp2

/-- The typestate of the sponge, as a tagged sum: `Absorbing` or
`Squeezing` (the two `Sponge<.., M, ..>` instantiations of
transcript_sponge.rs). -/
inductive SpongeState (F : Type) where
  | absorbing : AbsorbingSponge F → SpongeState F
  | squeezing : SqueezingSponge F → SpongeState F

/-- The operations the sponge API offers. -/
inductive SpongeOp (F : Type) where
  | absorbOp : F → SpongeOp F
  | finishOp : SpongeOp F
  | squeezeOp : SpongeOp F

/-- Whether a sponge state is in squeezing mode. -/
def SpongeState.isSqueezing : SpongeState F → Bool
  | .absorbing _ => false
  | .squeezing _ => true

/-- The permutation chip owned by a sponge state. -/
def SpongeState.chipOf : SpongeState F → PermChip F
  | .absorbing sp => sp.chip
  | .squeezing sp => sp.chip

/-- The sponge API as a step function on the typestate.  An operation that
the Rust type system does not offer in a given mode (absorbing or finishing
a squeezing sponge, squeezing an absorbing sponge) steps to `none`, as does
a panic or an exhausted squeeze budget. -/
def stepOp (RATE : Nat) : SpongeOp F → SpongeState F → Option (SpongeState F)
  | .absorbOp v, .absorbing sp => (absorb RATE sp v).map (fun r => .absorbing r.1)
  | .finishOp, .absorbing sp => some (.squeezing (finish_absorbing RATE sp).1)
  | .squeezeOp, .squeezing sp =>
    (squeezeFuel RATE 2 sp).map (fun r => .squeezing r.2.1)
  | _, _ => none

/-- A rate buffer is filled left-to-right with no hole before a filled
slot: a (possibly empty) block of `Some` entries followed only by `None`
entries. -/
def somesThenNones : List (Option F) → Bool
  | [] => true
  | some _ :: rest => somesThenNones rest
  | none :: rest => rest.all Option.isNone

/-- A rate buffer consumed left-to-right: a (possibly empty) block of
`None` entries followed only by `Some` entries. -/
def nonesThenSomes : List (Option F) → Bool
  | [] => true
  | none :: rest => nonesThenSomes rest
  | some _ :: rest => rest.all Option.isSome

/-- The mode-dependent rate-buffer invariant of the sponge: the buffer
always has exactly `RATE` slots and the state exactly `T` elements;
absorbing buffers are filled left-to-right (`somesThenNones`), squeezing
buffers are consumed left-to-right (`nonesThenSomes`). -/
def SpongeInv (T RATE : Nat) : SpongeState F → Prop
  | .absorbing sp =>
    sp.state.length = T ∧ sp.buffer.length = RATE ∧
      somesThenNones sp.buffer = true
  | .squeezing sp =>
    sp.state.length = T ∧ sp.buffer.length = RATE ∧
      nonesThenSomes sp.buffer = true

end TranscriptSponge

/-- Relative rotation of an advice query inside a gate (`Rotation::cur()` /
`Rotation::next()`). -/
inductive Rot where
  | cur
  | next

/-- Syntactic gate polynomials, as built by `create_gate` from advice
queries and the gate's selector. -/
inductive Expr (F : Type) where
  | advice : Nat → Rot → Expr F
  | selector : Expr F
  | add : Expr F → Expr F → Expr F
  | sub : Expr F → Expr F → Expr F
  | mul : Expr F → Expr F → Expr F

/-- Evaluation of a gate polynomial under an assignment of the advice
queries and of the selector. -/
def Expr.eval {F : Type} [CommRing F] (adv : Nat → Rot → F) (sel : F) :
    Expr F → F
  | .advice c r => adv c r
  | .selector => sel
  | .add e1 e2 => e1.eval adv sel + e2.eval adv sel
  | .sub e1 e2 => e1.eval adv sel - e2.eval adv sel
  | .mul e1 e2 => e1.eval adv sel * e2.eval adv sel

/-- The addition gate of `AddChip::configure` (lib.rs lines 105-112):
`s_add * (lhs + rhs - out)` with `lhs = advice[0]@cur`,
`rhs = advice[1]@cur`, `out = advice[0]@next`. -/
def addGatePoly {F : Type} : Expr F :=
  .mul .selector (.sub (.add (.advice 0 .cur) (.advice 1 .cur)) (.advice 0 .next))

/-- The multiplication gate of `MulChip::configure` (lib.rs lines 201-225):
`s_mul * (lhs * rhs - out)` with the same query layout as the addition
gate. -/
def mulGatePoly {F : Type} : Expr F :=
  .mul .selector (.sub (.mul (.advice 0 .cur) (.advice 1 .cur)) (.advice 0 .next))

/-- The advice assignment produced inside an add/mul region: `lhs` at
column 0 row 0, `rhs` at column 1 row 0, `out` at column 0 row 1 (rows
relative to the region); all other queries default to 0. -/
def advAssignOf {F : Type} [CommRing F] (l r o : F) : Nat → Rot → F
  | 0, .cur => l
  | 1, .cur => r
  | 0, .next => o
  | _, _ => 0

/-- One operation recorded while filling a region: enabling the region's
selector at a row, copy-constraining an existing cell's value into a
(column, row) cell, or assigning a freshly computed value. -/
inductive RegionOp (F : Type) where
  | enableSelector : Nat → RegionOp F
  | copyAdvice : Nat → Nat → F → RegionOp F
  | assignAdvice : Nat → Nat → F → RegionOp F

/-- The region body of `AddChip::add` (lib.rs lines 141-166): enable the
selector at region row 0, copy-constrain `a` and `b` into the two input
cells at row 0, assign `out = a + b` at row 1; returns the operations and
the output cell's value. -/
def AddChip.addOps {F : Type} [CommRing F] (a b : F) :
    List (RegionOp F) × F :=
  ([RegionOp.enableSelector 0, RegionOp.copyAdvice 0 0 a,
    RegionOp.copyAdvice 1 0 b, RegionOp.assignAdvice 0 1 (a + b)], a + b)

/-- The region body of `MulChip::mul` (lib.rs lines 253-278): identical
structure to `AddChip.addOps` with `out = a * b`. -/
def MulChip.mulOps {F : Type} [CommRing F] (a b : F) :
    List (RegionOp F) × F :=
  ([RegionOp.enableSelector 0, RegionOp.copyAdvice 0 0 a,
    RegionOp.copyAdvice 1 0 b, RegionOp.assignAdvice 0 1 (a * b)], a * b)

/-- Row-allocation state of the layouter: the next free absolute row.
Regions are laid out sequentially; since the add and mul regions use the
same two advice columns, the single-pass floor planner places them on
disjoint row ranges exactly as this sequential model does. -/
structure Layouter where
  nextRow : Nat

/-- An allocated region: its starting absolute row and its height. -/
structure RegionAlloc where
  start : Nat
  height : Nat

/-- The absolute rows occupied by an allocated region. -/
def rowsOfRegion (r : RegionAlloc) : Finset Nat :=
  Finset.Ico r.start (r.start + r.height)

/-- `FieldChip::add` (lib.rs lines 119-129): allocates one fresh
two-row region (input row and output row) and returns the output value
`a + b`, the allocated region and the advanced layouter. -/
def FieldChip.add {F : Type} [CommRing F] (ly : Layouter) (a b : F) :
    F × RegionAlloc × Layouter :=
  (a + b, { start := ly.nextRow, height := 2 }, { nextRow := ly.nextRow + 2 })

/-- `FieldChip::mul` (lib.rs lines 232-241): same allocation shape as
`FieldChip.add` with output `a * b`. -/
def FieldChip.mul {F : Type} [CommRing F] (ly : Layouter) (a b : F) :
    F × RegionAlloc × Layouter :=
  (a * b, { start := ly.nextRow, height := 2 }, { nextRow := ly.nextRow + 2 })

/-- `FieldChip::add_and_mul` (lib.rs lines 357-366): `add` then `mul` on
the sum, each in its own region; returns the value, both regions and the
final layouter. -/
def FieldChip.add_and_mul {F : Type} [CommRing F] (ly : Layouter)
    (a b c : F) : F × RegionAlloc × RegionAlloc × Layouter :=
  let r1 := FieldChip.add ly a b
  let r2 := FieldChip.mul r1.2.2 r1.1 c
  (r2.1, r1.2.1, r2.2.1, r2.2.2)

/-- Modelled from the spec: the fixed-length domain's padding
(`ConstantLength<L>::padding`, external halo2_gadgets crate) appends zero
words rounding the message length up to a multiple of `RATE`. -/
def constantLengthPadding (F : Type) [CommRing F] (L RATE : Nat) : List F :=
  List.replicate ((L + RATE - 1) / RATE * RATE - L) (0 : F)

/-- The permutation-based hash of a message under the circuit's parameters
(`RATE = 2`), as the spec describes it: absorb the message followed by its
fixed-length-domain padding into a fresh sponge, finish absorbing, squeeze
one element. -/
def spongeHash {F : Type} [CommRing F] (chip : PermChip F) (msg : List F) :
    Option F := do
  let sp0 ← TranscriptSponge.new 2 chip
  let r1 ← TranscriptSponge.absorbList 2 sp0
    (msg ++ constantLengthPadding F msg.length 2)
  let sp2 := (TranscriptSponge.finish_absorbing 2 r1.1).1
  let r ← TranscriptSponge.squeezeFuel 2 2 sp2
  some r.1

/-- The observable outcome of one synthesis pass of `MyCircuit`: the
derived value `d`, the squeezed element `r`, and the value and instance row
of the single `constrain_instance` call. -/
structure CircuitTrace (F : Type) where
  d : F
  r : F
  publicValue : F
  publicRow : Nat

/-- `MyCircuit::synthesize` (lib.rs lines 437-481) with the circuit's
constants `WIDTH = 3`, `RATE = 2`, `L = 1` (lib.rs lines 401-403): build a
fresh sponge, load `a, b, c`, compute `d = (a + b) * c` via the gate chips,
absorb `d` followed by the fixed-length-1 padding, finish absorbing,
squeeze one element `r`, and constrain the cell `d` (not `r`) to instance
row 0 (`expose_public(.., d, 0)`, lib.rs line 480). -/
def MyCircuit.synthesize {F : Type} [CommRing F] (chip : PermChip F)
    (a b c : F) : Option (CircuitTrace F) := do
  let sp0 ← TranscriptSponge.new 2 chip
  let d := (a + b) * c
  let r1 ← TranscriptSponge.absorbList 2 sp0
    (d :: constantLengthPadding F 1 2)
  let sp2 := (TranscriptSponge.finish_absorbing 2 r1.1).1
  let rr ← TranscriptSponge.squeezeFuel 2 2 sp2
  some { d := d, r := rr.1, publicValue := d, publicRow := 0 }

/-- Satisfiability of `MyCircuit`'s constraint system for witnesses
`(a, b, c)` and claimed public value `y`: synthesis succeeds and the value
bound by the single `constrain_instance` call equals `y`.  The instance
binding of lib.rs line 480 is the only constraint on the instance column;
every other constraint (the add/mul gates and the Poseidon-chip internal
constraints) holds by construction of the synthesized witness. -/
def MyCircuit.satisfiable {F : Type} [CommRing F] (chip : PermChip F)
    (a b c y : F) : Prop :=
  (MyCircuit.synthesize chip a b c).map CircuitTrace.publicValue = some y

/-- A concrete permutation chip over the integers with the circuit's width
`T = 3`: the permutation adds one to every state element and input
absorption leaves the state unchanged; used as an explicit instantiation of
the opaque permutation capability in witnesses and counterexamples. -/
def intChip : PermChip Int where
  initialState := [0, 0, 0]
  addInput := fun st _ => st
  permute := fun st => st.map (fun x => x + 1)

namespace TranscriptSponge

variable {F : Type}

theorem fillLeftmost_somes_none (xs : List F) (q : List (Option F)) (v : F) :
    fillLeftmost (xs.map some ++ none :: q) v = some (xs.map some ++ some v :: q) := by
  induction xs with
  | nil => rfl
  | cons x xs ih => simp [fillLeftmost, ih]

theorem fillLeftmost_somes (xs : List F) (v : F) :
    fillLeftmost (xs.map some) v = none := by
  induction xs with
  | nil => rfl
  | cons x xs ih => simp [fillLeftmost, ih]

theorem fillLeftmost_isSome_of_mem (buf : List (Option F)) (v : F)
    (h : none ∈ buf) : ∃ buf', fillLeftmost buf v = some buf' := by
  induction buf with
  | nil => simp at h
  | cons a rest ih =>
    cases a with
    | none => exact ⟨some v :: rest, rfl⟩
    | some x =>
      have hr : none ∈ rest := by
        rcases List.mem_cons.mp h with h1 | h2
        · exact absurd h1.symm (by simp)
        · exact h2
      obtain ⟨buf', hb⟩ := ih hr
      exact ⟨some x :: buf', by simp [fillLeftmost, hb]⟩

theorem fillLeftmost_length (buf : List (Option F)) (v : F) :
    ∀ buf', fillLeftmost buf v = some buf' → buf'.length = buf.length := by
  induction buf with
  | nil => intro buf' h; simp [fillLeftmost] at h
  | cons a rest ih =>
    intro buf' h
    cases a with
    | none =>
      simp [fillLeftmost] at h
      subst h; simp
    | some x =>
      simp [fillLeftmost] at h
      obtain ⟨r', hr', hb⟩ := h
      subst hb
      simp [ih r' hr']

theorem somesThenNones_of_all_isNone (l : List (Option F))
    (h : l.all Option.isNone = true) : somesThenNones l = true := by
  cases l with
  | nil => rfl
  | cons a rest =>
    simp [List.all_cons] at h
    obtain ⟨ha, hrest⟩ := h
    subst ha
    simpa [somesThenNones] using hrest

theorem nonesThenSomes_of_all_isSome (l : List (Option F))
    (h : l.all Option.isSome = true) : nonesThenSomes l = true := by
  cases l with
  | nil => rfl
  | cons a rest =>
    simp [List.all_cons] at h
    obtain ⟨ha, hrest⟩ := h
    obtain ⟨y, hy⟩ := Option.isSome_iff_exists.mp ha
    subst hy
    simpa [nonesThenSomes] using hrest

theorem fillLeftmost_somesThenNones (buf : List (Option F)) (v : F)
    (hw : somesThenNones buf = true) :
    ∀ buf', fillLeftmost buf v = some buf' → somesThenNones buf' = true := by
  induction buf with
  | nil => intro buf' h; simp [fillLeftmost] at h
  | cons a rest ih =>
    intro buf' h
    cases a with
    | none =>
      simp [fillLeftmost] at h
      subst h
      have hrest : rest.all Option.isNone = true := by
        simpa [somesThenNones] using hw
      simpa [somesThenNones] using somesThenNones_of_all_isNone rest hrest
    | some x =>
      simp [fillLeftmost] at h
      obtain ⟨r', hr', hb⟩ := h
      subst hb
      have hw' : somesThenNones rest = true := by
        simpa [somesThenNones] using hw
      simpa [somesThenNones] using ih hw' r' hr'

theorem takeLeftmost_nones_some (k : Nat) (x : F) (q : List (Option F)) :
    takeLeftmost (List.replicate k none ++ some x :: q) =
      some (x, List.replicate k none ++ none :: q) := by
  induction k with
  | zero => rfl
  | succ k ih => simp [List.replicate_succ, takeLeftmost, ih]

theorem takeLeftmost_replicate_none (k : Nat) :
    takeLeftmost (List.replicate k (none : Option F)) = none := by
  induction k with
  | zero => rfl
  | succ k ih => simp [List.replicate_succ, takeLeftmost, ih]

theorem takeLeftmost_length (buf : List (Option F)) :
    ∀ r, takeLeftmost buf = some r → r.2.length = buf.length := by
  induction buf with
  | nil => intro r h; simp [takeLeftmost] at h
  | cons a rest ih =>
    intro r h
    cases a with
    | some x =>
      simp [takeLeftmost] at h
      subst h; simp
    | none =>
      simp only [takeLeftmost, Option.map_eq_some'] at h
      obtain ⟨r', hr', hb⟩ := h
      have := ih r' hr'
      subst hb
      simpa using this

theorem takeLeftmost_nonesThenSomes (buf : List (Option F))
    (hw : nonesThenSomes buf = true) :
    ∀ r, takeLeftmost buf = some r → nonesThenSomes r.2 = true := by
  induction buf with
  | nil => intro r h; simp [takeLeftmost] at h
  | cons a rest ih =>
    intro r h
    cases a with
    | some x =>
      simp [takeLeftmost] at h
      subst h
      have hrest : rest.all Option.isSome = true := by
        simpa [nonesThenSomes] using hw
      simpa [nonesThenSomes] using nonesThenSomes_of_all_isSome rest hrest
    | none =>
      simp only [takeLeftmost, Option.map_eq_some'] at h
      obtain ⟨r', hr', hb⟩ := h
      have hw' : nonesThenSomes rest = true := by
        simpa [nonesThenSomes] using hw
      have := ih hw' r' hr'
      subst hb
      simpa [nonesThenSomes] using this

theorem all_isSome_map_some (l : List F) :
    (l.map some).all Option.isSome = true := by
  induction l with
  | nil => rfl
  | cons x xs ih => simpa [List.all_cons] using ih

theorem nonesThenSomes_map_some (l : List F) :
    nonesThenSomes (l.map some) = true := by
  cases l with
  | nil => rfl
  | cons x xs => simpa [nonesThenSomes] using all_isSome_map_some xs

theorem all_isNone_replicate (k : Nat) :
    (List.replicate k (none : Option F)).all Option.isNone = true := by
  induction k with
  | zero => rfl
  | succ k ih => simpa [List.replicate_succ, List.all_cons] using ih

theorem somesThenNones_replicate_none (k : Nat) :
    somesThenNones (List.replicate k (none : Option F)) = true := by
  cases k with
  | zero => rfl
  | succ k =>
    simpa [List.replicate_succ, somesThenNones] using all_isNone_replicate (F := F) k

theorem init_with_eq (RATE : Nat) (h : 1 ≤ RATE) (v : F) :
    init_with RATE v = some (some v :: List.replicate (RATE - 1) none) := by
  have hl : (some v :: List.replicate (RATE - 1) (none : Option F)).length = RATE := by
    simp; omega
  simp [init_with, hl]

theorem init_with_zero (v : F) : init_with 0 v = none := rfl

theorem new_eq (RATE : Nat) (chip : PermChip F) :
    new RATE chip =
      some { chip := chip, buffer := List.replicate RATE none,
             state := chip.initialState } := by
  simp [new]

theorem absorbList_fill (RATE : Nat) (chip : PermChip F) (st : List F) :
    ∀ (vs xs : List F) (m : Nat), vs.length ≤ m →
    absorbList RATE
        { chip := chip, buffer := xs.map some ++ List.replicate m none,
          state := st } vs =
      some ({ chip := chip,
              buffer := (xs ++ vs).map some ++
                List.replicate (m - vs.length) none,
              state := st }, 0) := by
  intro vs
  induction vs with
  | nil => intro xs m h; simp [absorbList]
  | cons v vs ih =>
    intro xs m h
    cases m with
    | zero => simp at h
    | succ m' =>
      have h' : vs.length ≤ m' := by simpa using h
      have key := fillLeftmost_somes_none xs (List.replicate m' (none : Option F)) v
      rw [List.replicate_succ]
      have habs : absorb RATE
          { chip := chip,
            buffer := xs.map some ++ none :: List.replicate m' none,
            state := st } v =
          some ({ chip := chip,
                  buffer := xs.map some ++ some v :: List.replicate m' none,
                  state := st }, 0) := by
        simp [absorb, key]
      have hrec := ih (xs ++ [v]) m' h'
      simp only [List.map_append, List.map_cons, List.map_nil, List.append_assoc,
        List.singleton_append, List.cons_append, List.nil_append] at hrec
      simp [absorbList, habs, hrec, Nat.succ_sub_succ]

theorem absorbList_append (RATE : Nat) :
    ∀ (l1 l2 : List F) (sp : AbsorbingSponge F),
    absorbList RATE sp (l1 ++ l2) =
      (absorbList RATE sp l1).bind (fun r1 =>
        (absorbList RATE r1.1 l2).map (fun r2 => (r2.1, r1.2 + r2.2))) := by
  intro l1
  induction l1 with
  | nil =>
    intro l2 sp
    cases h : absorbList RATE sp l2 with
    | none => simp [absorbList, h]
    | some r => simp [absorbList, h]
  | cons v l1 ih =>
    intro l2 sp
    cases ha : absorb RATE sp v with
    | none => simp [absorbList, ha]
    | some r1 =>
      have hsplit := ih l2 r1.1
      cases hb : absorbList RATE r1.1 l1 with
      | none => simp [absorbList, ha, hsplit, hb]
      | some s1 =>
        cases hc : absorbList RATE s1.1 l2 with
        | none => simp [absorbList, ha, hsplit, hb, hc]
        | some s2 => simp [absorbList, ha, hsplit, hb, hc, Nat.add_assoc]

theorem squeezeFuel_of_take (RATE n : Nat) (sp : SqueezingSponge F)
    (r : F × List (Option F)) (h : takeLeftmost sp.buffer = some r) :
    squeezeFuel RATE (n + 1) sp = some (r.1, { sp with buffer := r.2 }, 0) := by
  simp [squeezeFuel, h]

theorem squeezeFuel_refill (RATE T : Nat) (chip : PermChip F)
    (hWF : ChipWF chip T RATE) (hR : 1 ≤ RATE) (sp : SqueezingSponge F)
    (hchip : sp.chip = chip) (hst : sp.state.length = T)
    (hbuf : takeLeftmost sp.buffer = none) :
    ∃ v buf', squeezeFuel RATE 2 sp =
      some (v, { chip := chip, buffer := buf',
                 state := chip.permute sp.state }, 1) := by
  have hlen : (chip.permute sp.state).length = T := hWF.permute_len _ hst
  have htake : (List.take RATE (chip.permute sp.state)).length = RATE := by
    rw [List.length_take, hlen]
    exact Nat.min_eq_left hWF.rate_le
  have hne : List.take RATE (chip.permute sp.state) ≠ [] := by
    intro hcon
    rw [hcon] at htake
    simp at htake
    omega
  obtain ⟨h0, t, hdec⟩ := List.exists_cons_of_ne_nil hne
  refine ⟨h0, none :: t.map some, ?_⟩
  simp [squeezeFuel, hbuf, hchip, poseidon_sponge, getOutput, hdec, takeLeftmost]

theorem squeezeFuel_inv (RATE T : Nat) (chip : PermChip F)
    (hWF : ChipWF chip T RATE) :
    ∀ (n : Nat) (sp : SqueezingSponge F) (v : F) (sp' : SqueezingSponge F)
      (k : Nat), sp.chip = chip → sp.state.length = T →
    sp.buffer.length = RATE → nonesThenSomes sp.buffer = true →
    squeezeFuel RATE n sp = some (v, sp', k) →
    sp'.chip = chip ∧ sp'.state.length = T ∧ sp'.buffer.length = RATE ∧
      nonesThenSomes sp'.buffer = true := by
  intro n
  induction n with
  | zero =>
    intro sp v sp' k _ _ _ _ h
    simp [squeezeFuel] at h
  | succ n ih =>
    intro sp v sp' k hchip hst hlen hnts h
    cases htake : takeLeftmost sp.buffer with
    | some r =>
      rw [squeezeFuel_of_take RATE n sp r htake] at h
      obtain ⟨hv, hsp, hk⟩ := by
        simpa using h
      refine ⟨by simp [← hsp, hchip], by simp [← hsp, hst], ?_, ?_⟩
      · simp [← hsp]
        rw [takeLeftmost_length sp.buffer r htake]
        exact hlen
      · simp [← hsp]
        exact takeLeftmost_nonesThenSomes sp.buffer hnts r htake
    | none =>
      simp only [squeezeFuel, htake, poseidon_sponge, Option.map_eq_some'] at h
      obtain ⟨r', hr', hb⟩ := h
      obtain ⟨v', sp₁, k'⟩ := r'
      have hst2 : (sp.chip.permute sp.state).length = T := by
        rw [hchip]
        exact hWF.permute_len _ hst
      have hbuflen : (getOutput RATE (sp.chip.permute sp.state)).length = RATE := by
        simp [getOutput, List.length_take, hst2]
        exact hWF.rate_le
      have hnts2 : nonesThenSomes (getOutput RATE (sp.chip.permute sp.state))
          = true := nonesThenSomes_map_some _
      have := ih { chip := sp.chip, buffer := getOutput RATE (sp.chip.permute sp.state),
                   state := sp.chip.permute sp.state } v' sp₁ k' hchip hst2 hbuflen hnts2 hr'
      obtain ⟨hv, hsp, hk⟩ := by
        simpa using hb
      exact ⟨by rw [← hsp]; exact this.1, by rw [← hsp]; exact this.2.1,
        by rw [← hsp]; exact this.2.2.1, by rw [← hsp]; exact this.2.2.2⟩

theorem squeezeFuel_head_some (RATE : Nat) (chip : PermChip F) (x : F)
    (t : List (Option F)) (st : List F) :
    squeezeFuel RATE 2 { chip := chip, buffer := some x :: t, state := st } =
      some (x, { chip := chip, buffer := none :: t, state := st }, 0) := rfl

end TranscriptSponge

theorem intChip_wf : ChipWF intChip 3 2 :=
  ⟨by norm_num, rfl, fun st h => by simpa [intChip] using h,
    fun st inp h => by simpa [intChip] using h⟩

theorem constantLengthPadding_one_two (F : Type) [CommRing F] :
    constantLengthPadding F 1 2 = [0] := rfl

theorem synthesize_eq {F : Type} [CommRing F] (chip : PermChip F)
    (hWF : ChipWF chip 3 2) (a b c : F) :
    ∃ x : F, MyCircuit.synthesize chip a b c =
      some { d := (a + b) * c, r := x, publicValue := (a + b) * c,
             publicRow := 0 } := by
  have hpad := constantLengthPadding_one_two F
  have hnew := TranscriptSponge.new_eq 2 chip
  have habs := TranscriptSponge.absorbList_fill 2 chip chip.initialState
    [(a + b) * c, 0] [] 2 (by norm_num)
  simp at habs
  have hlen : (chip.permute (chip.addInput chip.initialState
      [some ((a + b) * c), some (0 : F)])).length = 3 :=
    hWF.permute_len _ (hWF.addInput_len _ _ hWF.init_len)
  obtain ⟨x, y, z, hxyz⟩ := List.length_eq_three.mp hlen
  refine ⟨x, ?_⟩
  simp [MyCircuit.synthesize, hnew, hpad, habs,
    TranscriptSponge.finish_absorbing, TranscriptSponge.poseidon_sponge,
    getOutput, hxyz, TranscriptSponge.squeezeFuel_head_some]
theorem init_with_char {F : Type} (RATE : Nat) (v : F) (b : List (Option F))
    (h : TranscriptSponge.init_with RATE v = some b) :
    b = some v :: List.replicate (RATE - 1) none ∧ b.length = RATE := by
  simp only [TranscriptSponge.init_with] at h
  split at h
  · rename_i hlen
    obtain rfl := Option.some_inj.mp h
    exact ⟨rfl, hlen⟩
  · exact absurd h (by simp)

/-- C1 (counterexample): the orchestrator circuit does not bind the
squeezed element to the public-input row.  With the explicit permutation
chip `intChip` and witnesses `a = 3, b = 4, c = 5`, the system is
satisfiable for the public value `35 = (3 + 4) * 5`, yet the
permutation-based hash of the message `[(3 + 4) * 5]` is not `35`; so
satisfiability is not equivalent to `y` being the hash, contradicting the
claim. -/
theorem c1_counterexample :
    MyCircuit.satisfiable intChip 3 4 5 35 ∧
      spongeHash intChip [(3 + 4) * 5] ≠ some 35 := by
  constructor
  · rfl
  · decide

/-- C1 (amended): for a well-formed permutation chip of the circuit's
dimensions (`T = 3`, `RATE = 2`), `MyCircuit` squeezes one element from
the sponge but binds `d = (a + b) * c` (not the squeezed element) to
instance row 0, so the constraint system is satisfiable for `(a, b, c)`
and public value `y` iff `y = (a + b) * c`. -/
theorem c1_amended {F : Type} [CommRing F] (chip : PermChip F)
    (hWF : ChipWF chip 3 2) (a b c y : F) :
    (MyCircuit.satisfiable chip a b c y ↔ y = (a + b) * c) ∧
      (∃ tr, MyCircuit.synthesize chip a b c = some tr ∧
        tr.publicValue = (a + b) * c ∧ tr.publicRow = 0) := by
  obtain ⟨x, hx⟩ := synthesize_eq chip hWF a b c
  constructor
  · unfold MyCircuit.satisfiable
    rw [hx]
    simp [eq_comm]
  · exact ⟨_, hx, rfl, rfl⟩

/-- C1 (witness): the amended claim instantiated at the explicit chip
`intChip` and witnesses `3, 4, 5` with public value `35`. -/
theorem c1_witness :
    (MyCircuit.satisfiable intChip 3 4 5 35 ↔ (35 : Int) = (3 + 4) * 5) ∧
      (∃ tr, MyCircuit.synthesize intChip 3 4 5 = some tr ∧
        tr.publicValue = (3 + 4) * 5 ∧ tr.publicRow = 0) :=
  c1_amended intChip intChip_wf 3 4 5 35

/-- C2 (counterexample): with `RATE = 0` the (vacuously full) zero-slot
buffer sends `absorb` to the buffer-full path, where `init_with` panics
(modelled as `none`) instead of producing a fresh buffer with the value in
slot 0; consequently absorbing `RATE + 1 = 1` values into a fresh sponge
panics rather than invoking the permutation exactly once and buffering the
value. -/
theorem c2_counterexample :
    TranscriptSponge.absorb 0
        { chip := intChip, buffer := [], state := [0, 0, 0] } 7 = none ∧
      TranscriptSponge.absorbList 0
        { chip := intChip, buffer := [], state := [0, 0, 0] } [7] = none := by
  constructor <;> rfl

/-- C2 (amended): for every absorbing sponge with `RATE ≥ 1`: absorbing
with an empty slot available fills the leftmost empty slot and makes no
permutation call; absorbing on a completely full buffer makes exactly one
permutation call on the current state and buffer and restarts the buffer
with the value in slot 0 and all other slots empty; absorbing at most
`RATE` values into a fresh sponge makes no permutation call, and absorbing
`RATE + 1` values makes exactly one, before the last value is buffered. -/
theorem c2_amended (RATE : Nat) {F : Type} (chip : PermChip F)
    (hR : 1 ≤ RATE) :
    (∀ (st : List F) (v : F) (p : List F) (q : List (Option F)),
      TranscriptSponge.absorb RATE
          { chip := chip, buffer := p.map some ++ none :: q, state := st } v =
        some ({ chip := chip, buffer := p.map some ++ some v :: q,
                state := st }, 0)) ∧
    (∀ (st : List F) (v : F) (p : List F),
      TranscriptSponge.absorb RATE
          { chip := chip, buffer := p.map some, state := st } v =
        some ({ chip := chip,
                buffer := some v :: List.replicate (RATE - 1) none,
                state := chip.permute (chip.addInput st (p.map some)) }, 1)) ∧
    (∀ vs : List F, vs.length ≤ RATE →
      ∃ sp', TranscriptSponge.absorbList RATE
        { chip := chip, buffer := List.replicate RATE none,
          state := chip.initialState } vs = some (sp', 0)) ∧
    (∀ (vs : List F) (w : F), vs.length = RATE →
      TranscriptSponge.absorbList RATE
          { chip := chip, buffer := List.replicate RATE none,
            state := chip.initialState } (vs ++ [w]) =
        some ({ chip := chip,
                buffer := some w :: List.replicate (RATE - 1) none,
                state := chip.permute (chip.addInput chip.initialState
                  (vs.map some)) }, 1)) := by
  refine ⟨?_, ?_, ?_, ?_⟩
  · intro st v p q
    simp [TranscriptSponge.absorb, TranscriptSponge.fillLeftmost_somes_none]
  · intro st v p
    simp [TranscriptSponge.absorb, TranscriptSponge.fillLeftmost_somes,
      TranscriptSponge.poseidon_sponge, TranscriptSponge.init_with_eq RATE hR]
  · intro vs hvs
    have h := TranscriptSponge.absorbList_fill RATE chip chip.initialState
      vs [] RATE hvs
    simp at h
    exact ⟨_, h⟩
  · intro vs w hvs
    have hsplit := TranscriptSponge.absorbList_append RATE vs [w]
      { chip := chip, buffer := List.replicate RATE none,
        state := chip.initialState }
    have hfill := TranscriptSponge.absorbList_fill RATE chip
      chip.initialState vs [] RATE (le_of_eq hvs)
    simp [hvs] at hfill
    have habs : TranscriptSponge.absorb RATE
        { chip := chip, buffer := vs.map some, state := chip.initialState } w =
        some ({ chip := chip,
                buffer := some w :: List.replicate (RATE - 1) none,
                state := chip.permute (chip.addInput chip.initialState
                  (vs.map some)) }, 1) := by
      simp [TranscriptSponge.absorb, TranscriptSponge.fillLeftmost_somes,
        TranscriptSponge.poseidon_sponge, TranscriptSponge.init_with_eq RATE hR]
    rw [hsplit, hfill]
    simp [TranscriptSponge.absorbList, habs]

/-- C2 (witness): the amended claim's leftmost-fill clause instantiated at
`RATE = 2` with one filled and one empty slot. -/
theorem c2_witness :
    TranscriptSponge.absorb 2
        { chip := intChip, buffer := [some 9, none], state := [0, 0, 0] } 7 =
      some ({ chip := intChip, buffer := [some 9, some 7],
              state := [0, 0, 0] }, 0) := by
  have h := (c2_amended 2 intChip (by norm_num)).1 [0, 0, 0] 7 [9] []
  simpa using h

/-- C3: for every absorbing sponge, including one whose buffer is entirely
empty, `finish_absorbing` makes exactly one permutation call on the current
buffer contents, sets the squeezing buffer to `get_output` of the new state
(its first `RATE` elements), and consumes the absorbing sponge into a
squeezing one; moreover no sponge operation steps a squeezing state back to
an absorbing state. -/
theorem c3_finish_absorbing (RATE : Nat) {F : Type} (chip : PermChip F) :
    (∀ (buf : List (Option F)) (st : List F),
      TranscriptSponge.finish_absorbing RATE
          { chip := chip, buffer := buf, state := st } =
        ({ chip := chip,
           buffer := ((chip.permute (chip.addInput st buf)).take RATE).map some,
           state := chip.permute (chip.addInput st buf) }, 1)) ∧
    (∀ (op : TranscriptSponge.SpongeOp F)
       (sq : TranscriptSponge.SqueezingSponge F),
      Option.all TranscriptSponge.SpongeState.isSqueezing
        (TranscriptSponge.stepOp RATE op (.squeezing sq)) = true) := by
  refine ⟨?_, ?_⟩
  · intro buf st
    rfl
  · intro op sq
    cases op with
    | absorbOp v => rfl
    | finishOp => rfl
    | squeezeOp =>
      cases h : TranscriptSponge.squeezeFuel RATE 2 sq with
      | none => simp [TranscriptSponge.stepOp, h]
      | some r =>
        simp [TranscriptSponge.stepOp, h,
          TranscriptSponge.SpongeState.isSqueezing]

/-- C4 (counterexample): with `RATE = 0` the squeeze loop never returns:
the refilled buffer is always empty, so the loop is not bounded by two
iterations (nor by any larger budget), contradicting the claim that squeeze
always terminates within two iterations. -/
theorem c4_counterexample :
    TranscriptSponge.squeezeFuel 0 2
        { chip := intChip, buffer := [], state := [0, 0, 0] } = none ∧
      TranscriptSponge.squeezeFuel 0 37
        { chip := intChip, buffer := [], state := [0, 0, 0] } = none := by
  constructor <;> rfl

/-- C4 (amended): for every squeezing sponge over a well-formed chip with
`RATE ≥ 1`: if the buffer has an unconsumed element, squeeze removes and
returns the leftmost one with no permutation call; if the buffer is
exhausted, squeeze makes one permutation call with no new input, refills
the buffer and retries; in all cases the loop returns within two
iterations, hence with at most one permutation call. -/
theorem c4_amended (RATE T : Nat) {F : Type} (chip : PermChip F)
    (hWF : ChipWF chip T RATE) (hR : 1 ≤ RATE) (st : List F)
    (hst : st.length = T) :
    (∀ (k : Nat) (x : F) (q : List (Option F)),
      TranscriptSponge.squeezeFuel RATE 2
          { chip := chip, buffer := List.replicate k none ++ some x :: q,
            state := st } =
        some (x, { chip := chip,
                   buffer := List.replicate k none ++ none :: q,
                   state := st }, 0)) ∧
    (∀ m : Nat,
      ∃ v buf', TranscriptSponge.squeezeFuel RATE 2
          { chip := chip, buffer := List.replicate m none, state := st } =
        some (v, { chip := chip, buffer := buf',
                   state := chip.permute st }, 1)) ∧
    (∀ buf : List (Option F),
      ∃ v sp' k, TranscriptSponge.squeezeFuel RATE 2
          { chip := chip, buffer := buf, state := st } = some (v, sp', k) ∧
        k ≤ 1) := by
  refine ⟨?_, ?_, ?_⟩
  · intro k x q
    exact TranscriptSponge.squeezeFuel_of_take RATE 1 _
      (x, List.replicate k none ++ none :: q)
      (TranscriptSponge.takeLeftmost_nones_some k x q)
  · intro m
    exact TranscriptSponge.squeezeFuel_refill RATE T chip hWF hR
      { chip := chip, buffer := List.replicate m none, state := st } rfl hst
      (TranscriptSponge.takeLeftmost_replicate_none m)
  · intro buf
    cases htake : TranscriptSponge.takeLeftmost buf with
    | some r =>
      exact ⟨r.1, _, 0,
        TranscriptSponge.squeezeFuel_of_take RATE 1 _ r htake, by norm_num⟩
    | none =>
      obtain ⟨v, buf', hb⟩ := TranscriptSponge.squeezeFuel_refill RATE T chip
        hWF hR { chip := chip, buffer := buf, state := st } rfl hst htake
      exact ⟨v, _, 1, hb, le_refl 1⟩

/-- C4 (witness): the amended claim's leftmost clause at `RATE = 2` with
the first slot consumed and the second still holding an element. -/
theorem c4_witness :
    TranscriptSponge.squeezeFuel 2 2
        { chip := intChip, buffer := [none, some 5], state := [0, 0, 0] } =
      some (5, { chip := intChip, buffer := [none, none],
                 state := [0, 0, 0] }, 0) := by
  have h := (c4_amended 2 3 intChip intChip_wf (by norm_num) [0, 0, 0]
    rfl).1 1 5 []
  simpa using h

/-- C5 (counterexample): the buffer is not always free of empty slots
below filled slots: after `new; finish_absorbing; squeeze` with the
explicit chip `intChip` (`RATE = 2`), the squeezing buffer is
`[none, some 1]`, an empty slot at a lower index than a filled one. -/
theorem c5_counterexample :
    (TranscriptSponge.new 2 intChip).bind (fun sp0 =>
      (TranscriptSponge.squeezeFuel 2 2
        (TranscriptSponge.finish_absorbing 2 sp0).1).map (fun r =>
          (r.2.1.buffer, TranscriptSponge.somesThenNones r.2.1.buffer))) =
      some ([none, some 1], false) := rfl

/-- C5 (amended): every sponge operation preserves the rate-buffer
invariants: the buffer always has exactly `RATE` slots and the state `T`
elements; absorbing buffers are filled strictly left-to-right with no
empty slot below a filled one, while squeezing buffers are consumed
strictly left-to-right with no filled slot below an empty one; the sponge's
chip is also preserved. -/
theorem c5_amended (RATE T : Nat) {F : Type} (chip : PermChip F)
    (hWF : ChipWF chip T RATE) :
    (∀ sp0, TranscriptSponge.new RATE chip = some sp0 →
      TranscriptSponge.SpongeState.chipOf (.absorbing sp0) = chip ∧
        TranscriptSponge.SpongeInv T RATE (.absorbing sp0)) ∧
    (∀ (op : TranscriptSponge.SpongeOp F)
       (s s' : TranscriptSponge.SpongeState F),
      TranscriptSponge.SpongeState.chipOf s = chip →
      TranscriptSponge.SpongeInv T RATE s →
      TranscriptSponge.stepOp RATE op s = some s' →
      TranscriptSponge.SpongeState.chipOf s' = chip ∧
        TranscriptSponge.SpongeInv T RATE s') := by
  refine ⟨?_, ?_⟩
  · intro sp0 h
    rw [TranscriptSponge.new_eq] at h
    obtain rfl := Option.some_inj.mp h
    exact ⟨rfl, hWF.init_len, by simp,
      TranscriptSponge.somesThenNones_replicate_none RATE⟩
  · intro op s s' hchip hInv hstep
    cases s with
    | squeezing sq =>
      cases op with
      | absorbOp v => simp [TranscriptSponge.stepOp] at hstep
      | finishOp => simp [TranscriptSponge.stepOp] at hstep
      | squeezeOp =>
        simp only [TranscriptSponge.stepOp, Option.map_eq_some'] at hstep
        obtain ⟨r, hr, rfl⟩ := hstep
        obtain ⟨v, sp1, k⟩ := r
        obtain ⟨h1, h2, h3⟩ := hInv
        have hq := TranscriptSponge.squeezeFuel_inv RATE T chip hWF 2 sq v
          sp1 k hchip h1 h2 h3 hr
        exact ⟨hq.1, hq.2.1, hq.2.2.1, hq.2.2.2⟩
    | absorbing sa =>
      cases op with
      | squeezeOp => simp [TranscriptSponge.stepOp] at hstep
      | finishOp =>
        simp only [TranscriptSponge.stepOp, Option.some_inj] at hstep
        obtain ⟨h1, h2, h3⟩ := hInv
        subst hstep
        have hchip' : sa.chip = chip := hchip
        have hst2 : (sa.chip.permute (sa.chip.addInput sa.state
            sa.buffer)).length = T := by
          rw [hchip']
          exact hWF.permute_len _ (hWF.addInput_len _ _ h1)
        refine ⟨hchip, hst2, ?_, ?_⟩
        · simp [TranscriptSponge.finish_absorbing,
            TranscriptSponge.poseidon_sponge, getOutput, List.length_take,
            hst2]
          exact hWF.rate_le
        · exact TranscriptSponge.nonesThenSomes_map_some _
      | absorbOp v =>
        simp only [TranscriptSponge.stepOp, Option.map_eq_some'] at hstep
        obtain ⟨r, hr, rfl⟩ := hstep
        obtain ⟨h1, h2, h3⟩ := hInv
        cases hfill : TranscriptSponge.fillLeftmost sa.buffer v with
        | some buf =>
          simp only [TranscriptSponge.absorb, hfill, Option.some_inj] at hr
          subst hr
          refine ⟨hchip, h1, ?_, ?_⟩
          · rw [TranscriptSponge.fillLeftmost_length sa.buffer v buf hfill]
            exact h2
          · exact TranscriptSponge.fillLeftmost_somesThenNones sa.buffer v
              h3 buf hfill
        | none =>
          simp only [TranscriptSponge.absorb, hfill,
            Option.map_eq_some'] at hr
          obtain ⟨b, hb, hr'⟩ := hr
          obtain ⟨hbeq, hblen⟩ := init_with_char RATE v b hb
          subst hr'
          have hchip' : sa.chip = chip := hchip
          have hst2 : (sa.chip.permute (sa.chip.addInput sa.state
              sa.buffer)).length = T := by
            rw [hchip']
            exact hWF.permute_len _ (hWF.addInput_len _ _ h1)
          refine ⟨hchip, ?_, hblen, ?_⟩
          · simpa [TranscriptSponge.poseidon_sponge] using hst2
          · subst hbeq
            exact TranscriptSponge.somesThenNones_replicate_none (RATE - 1)

/-- C5 (witness): the amended preservation theorem applied to one concrete
absorb step at `RATE = 2`, `T = 3` with the explicit chip `intChip`. -/
theorem c5_witness :
    TranscriptSponge.SpongeState.chipOf
        (TranscriptSponge.SpongeState.absorbing
          { chip := intChip, buffer := [some 7, none],
            state := ([0, 0, 0] : List Int) }) = intChip ∧
      TranscriptSponge.SpongeInv 3 2
        (TranscriptSponge.SpongeState.absorbing
          { chip := intChip, buffer := [some 7, none],
            state := ([0, 0, 0] : List Int) }) :=
  (c5_amended 2 3 intChip intChip_wf).2
    (TranscriptSponge.SpongeOp.absorbOp 7)
    (TranscriptSponge.SpongeState.absorbing
      { chip := intChip, buffer := [none, none], state := [0, 0, 0] })
    (TranscriptSponge.SpongeState.absorbing
      { chip := intChip, buffer := [some 7, none], state := [0, 0, 0] })
    rfl ⟨rfl, rfl, rfl⟩ rfl

/-- C6: the add region enables its selector at region row 0,
copy-constrains the two inputs into the input cells at row 0, and assigns
`out = a + b` at row 1, with enforced polynomial
`selector * (lhs + rhs - out)`; the mul region has the identical structure
with `selector * (lhs * rhs - out)`; in both cases the region's own
assignment satisfies the gate. -/
theorem c6_gates {F : Type} [CommRing F] (a b s : F) (adv : Nat → Rot → F) :
    AddChip.addOps a b =
      ([RegionOp.enableSelector 0, RegionOp.copyAdvice 0 0 a,
        RegionOp.copyAdvice 1 0 b, RegionOp.assignAdvice 0 1 (a + b)],
        a + b) ∧
    MulChip.mulOps a b =
      ([RegionOp.enableSelector 0, RegionOp.copyAdvice 0 0 a,
        RegionOp.copyAdvice 1 0 b, RegionOp.assignAdvice 0 1 (a * b)],
        a * b) ∧
    Expr.eval adv s addGatePoly =
      s * (adv 0 Rot.cur + adv 1 Rot.cur - adv 0 Rot.next) ∧
    Expr.eval adv s mulGatePoly =
      s * (adv 0 Rot.cur * adv 1 Rot.cur - adv 0 Rot.next) ∧
    Expr.eval (advAssignOf a b (a + b)) s addGatePoly = 0 ∧
    Expr.eval (advAssignOf a b (a * b)) s mulGatePoly = 0 := by
  refine ⟨rfl, rfl, rfl, rfl, ?_, ?_⟩
  · show s * (a + b - (a + b)) = 0
    ring
  · show s * (a * b - a * b) = 0
    ring

/-- C7: `add_and_mul` equals `mul` applied to `add`'s output: it returns
the value `(a + b) * c`, allocated via two independent regions (one for
the addition and one for the multiplication) occupying disjoint row
ranges. -/
theorem c7_add_and_mul {F : Type} [CommRing F] (ly : Layouter) (a b c : F) :
    (FieldChip.add_and_mul ly a b c).1 = (a + b) * c ∧
    (FieldChip.add_and_mul ly a b c).1 =
      (FieldChip.mul (FieldChip.add ly a b).2.2
        (FieldChip.add ly a b).1 c).1 ∧
    (FieldChip.add_and_mul ly a b c).2.1 =
      { start := ly.nextRow, height := 2 } ∧
    (FieldChip.add_and_mul ly a b c).2.2.1 =
      { start := ly.nextRow + 2, height := 2 } ∧
    Disjoint (rowsOfRegion (FieldChip.add_and_mul ly a b c).2.1)
      (rowsOfRegion (FieldChip.add_and_mul ly a b c).2.2.1) := by
  refine ⟨rfl, rfl, rfl, rfl, ?_⟩
  show Disjoint (Finset.Ico ly.nextRow (ly.nextRow + 2))
    (Finset.Ico (ly.nextRow + 2) (ly.nextRow + 2 + 2))
  exact Finset.Ico_disjoint_Ico_consecutive _ _ _

/-- C8: the sponge is deterministic: two runs of
`absorb*; finish_absorbing; squeeze*` from fresh sponges over the same
chip on identical input sequences produce identical outputs. -/
theorem c8_determinism (RATE : Nat) {F : Type} (chip : PermChip F)
    (xs ys : List F) (n : Nat) (h : xs = ys) :
    TranscriptSponge.runTranscript RATE chip xs n =
      TranscriptSponge.runTranscript RATE chip ys n := by
  rw [h]

/-- C8 (witness): determinism applied to two identical one-element input
sequences over the explicit chip `intChip`. -/
theorem c8_witness :
    ([35] : List Int) = [35] ∧
      TranscriptSponge.runTranscript 2 intChip [35] 1 =
        TranscriptSponge.runTranscript 2 intChip [35] 1 :=
  ⟨rfl, c8_determinism 2 intChip [35] [35] 1 rfl⟩

/-- C9: absorbing into a buffer with at least one empty slot modifies only
the mode buffer: the permutation state and the chip are unchanged and no
permutation call (count 0, hence no region allocation, since the only
layouter use inside `absorb` is the `poseidon_sponge` call) occurs. -/
theorem c9_absorb_frame (RATE : Nat) {F : Type} (chip : PermChip F)
    (buf : List (Option F)) (st : List F) (v : F) (h : none ∈ buf) :
    ∃ buf', TranscriptSponge.absorb RATE
        { chip := chip, buffer := buf, state := st } v =
      some ({ chip := chip, buffer := buf', state := st }, 0) := by
  obtain ⟨buf', hb⟩ := TranscriptSponge.fillLeftmost_isSome_of_mem buf v h
  exact ⟨buf', by simp [TranscriptSponge.absorb, hb]⟩

/-- C9 (witness): the frame theorem applied at `RATE = 2` to a buffer with
one filled and one empty slot. -/
theorem c9_witness :
    none ∈ [some (4 : Int), none] ∧
      ∃ buf', TranscriptSponge.absorb 2
          { chip := intChip, buffer := [some 4, none], state := [0, 0, 0] }
          7 =
        some ({ chip := intChip, buffer := buf', state := [0, 0, 0] }, 0) :=
  ⟨by decide, c9_absorb_frame 2 intChip [some 4, none] [0, 0, 0] 7
    (by decide)⟩

/-- C10: the sponge operations are total only under the unchecked
precondition `RATE ≥ 1`.  At `RATE = 0`: `absorb` always reaches the
buffer-full path and panics inside `init_with` (the one-element vector
cannot convert into a zero-length array, embedded as `none`); the squeeze
loop never returns for any iteration budget, since the refilled buffer is
always empty; and `new` succeeds without validating `RATE`. -/
theorem c10_rate_zero {F : Type} (chip : PermChip F) (st : List F) (v : F) :
    TranscriptSponge.absorb 0
        { chip := chip, buffer := [], state := st } v = none ∧
    (∀ n : Nat, TranscriptSponge.squeezeFuel 0 n
        { chip := chip, buffer := [], state := st } = none) ∧
    TranscriptSponge.new 0 chip =
      some { chip := chip, buffer := [], state := chip.initialState } := by
  refine ⟨rfl, ?_, rfl⟩
  intro n
  induction n generalizing st with
  | zero => rfl
  | succ n ih =>
    simp [TranscriptSponge.squeezeFuel, TranscriptSponge.takeLeftmost,
      TranscriptSponge.poseidon_sponge, getOutput, ih]
